import Mathlib

/-!
Verification of the orchestration-and-consensus engine of `src/ai.py`
(Ollama multi-agent orchestrator).

Modelling conventions:
* Python strings are Lean `String`s; character-level work uses `List Char`
  (`String.data`).
* Python `float` arithmetic is idealized over `ℚ` (all values that the
  engine stores are 3-decimal-rounded, hence exact rationals); the Shannon
  entropy computation itself uses `ℝ` because of `math.log2`.
* `round(x, 3)` is modelled as `(round (x * 1000)) / 1000` with Mathlib's
  `round` (round-half-up; Python uses banker's rounding, which differs only
  at exact half-thousandths — no claim depends on a half-way case).
* `hashlib.sha256` and the Ollama HTTP endpoint (`requests.post`) are
  external collaborators: they enter the model as function parameters
  `sha256 : String → String` and `svc : String → String → Except String String`
  (model, full prompt ↦ response text or a connection error message).
* `random.random()` and `time.time()` are modelled as parameters
  (`nonce : Nat → String` for the i-th agent's nonce, `now : String`).
* Python dicts preserve insertion order; `candidate_groups` is therefore an
  insertion-ordered association list.  `list.sort(key=..., reverse=True)` is
  a stable descending sort, modelled by stable insertion sort `sortDesc`.
* The unused `round_fragments` list and the observability-only `log_entries`
  of `orchestrate` are not modelled; no claim mentions them.
-/

namespace CodersAGI

/-! ### Python string primitives -/

/-- Characters removed by CPython's `str.strip()`: the Unicode whitespace
set of `Py_UNICODE_ISSPACE` — 0x09-0x0D (tab, LF, VT, FF, CR), 0x1C-0x1F
(file/group/record/unit separators), space, NEL (0x85), NBSP (0xA0), Ogham
space mark (0x1680), 0x2000-0x200A (typographic spaces), line and
paragraph separators (0x2028, 0x2029), narrow NBSP (0x202F), medium
mathematical space (0x205F) and ideographic space (0x3000). -/
def pySpace (c : Char) : Bool :=
  (0x09 ≤ c.toNat && c.toNat ≤ 0x0D) || (0x1C ≤ c.toNat && c.toNat ≤ 0x1F) ||
  c.toNat = 0x20 || c.toNat = 0x85 || c.toNat = 0xA0 || c.toNat = 0x1680 ||
  (0x2000 ≤ c.toNat && c.toNat ≤ 0x200A) ||
  c.toNat = 0x2028 || c.toNat = 0x2029 || c.toNat = 0x202F || c.toNat = 0x205F ||
  c.toNat = 0x3000

/-- `str.strip()` on a character list: drop whitespace at both ends. -/
def stripChars (l : List Char) : List Char :=
  ((l.dropWhile pySpace).reverse.dropWhile pySpace).reverse

/-- `str.strip()` on a `String`. -/
def pyStrip (s : String) : String :=
  String.mk (stripChars s.data)

/-- `str.split('\n')`: split into lines at newline characters.
`splitLines [] = [[]]` mirrors `"".split('\n') == ['']`. -/
def splitLines : List Char → List (List Char)
  | [] => [[]]
  | c :: rest =>
    let r := splitLines rest
    if c = '\n' then [] :: r
    else (c :: r.headI) :: r.tail

/-- `'\n'.join(lines)`. -/
def joinLines : List (List Char) → List Char
  | [] => []
  | [l] => l
  | l :: l2 :: ls => l ++ '\n' :: joinLines (l2 :: ls)

/-- `line.strip().startswith('//')`. -/
def isCommentLine (l : List Char) : Bool :=
  match stripChars l with
  | '/' :: '/' :: _ => true
  | _ => false

/-- `.replace('\s', '')`: Python's `'\s'` is the literal two-character
string backslash-`s` (an invalid escape kept verbatim), so this removes the
left-to-right non-overlapping occurrences of that substring. -/
def removeBS : List Char → List Char
  | [] => []
  | '\\' :: 's' :: rest => removeBS rest
  | c :: rest => c :: removeBS rest

/-- The grouping key of `assemble_final_answer` (lines 111-112 of
`src/ai.py`): drop comment lines, re-join with newlines, remove literal
`\s` substrings, strip boundary whitespace. -/
def normalize (s : String) : List Char :=
  stripChars (removeBS (joinLines ((splitLines s.data).filter (fun l => !(isCommentLine l)))))

/-! ### Data model -/

/-- A fragment as built in `orchestrate` (lines 233-240 of `src/ai.py`). -/
structure Fragment where
  agentId : String
  origin : String
  round : Nat
  candidate : String
  entropy : ℚ
  model : String
deriving DecidableEq, Inhabited

/-- A candidate group during assembly (lines 117-123 of `src/ai.py`); the
`agents`/`rounds` Python `set`s are `Finset`s (only their size is read). -/
structure Group where
  candidates : List Fragment
  totalEntropy : ℚ
  agents : Finset String
  rounds : Finset Nat
  root_candidate : Option Fragment
deriving DecidableEq, Inhabited

def emptyGroup : Group :=
  { candidates := [], totalEntropy := 0, agents := ∅, rounds := ∅, root_candidate := none }

/-- One loop iteration over a group (lines 125-133 of `src/ai.py`). -/
def addFrag (g : Group) (f : Fragment) : Group :=
  { candidates := g.candidates ++ [f]
    totalEntropy := g.totalEntropy + f.entropy
    agents := insert f.agentId g.agents
    rounds := insert f.round g.rounds
    root_candidate :=
      match g.root_candidate with
      | none => some f
      | some r => if f.entropy > r.entropy then some f else some r }

/-- The group accumulated from a list of fragments (specification helper:
the value a `candidate_groups` entry holds once all its fragments have been
folded in). -/
def mkGroupOf (l : List Fragment) : Group :=
  l.foldl addFrag emptyGroup

/-- The `root_candidate` update of lines 131-133, as a standalone fold step. -/
def rootStep (o : Option Fragment) (f : Fragment) : Option Fragment :=
  match o with
  | none => some f
  | some r => if f.entropy > r.entropy then some f else some r

/-- Association-list lookup over the insertion-ordered `candidate_groups`. -/
def lookupG : List (List Char × Group) → List Char → Option Group
  | [], _ => none
  | (k, g) :: rest, key => if k = key then some g else lookupG rest key

/-- `candidate_groups[key]` update: mutate the existing entry in place or
append a fresh one (Python dicts keep insertion order). -/
def assocUpdate : List (List Char × Group) → List Char → Fragment → List (List Char × Group)
  | [], key, f => [(key, addFrag emptyGroup f)]
  | (k, g) :: rest, key, f =>
    if k = key then (k, addFrag g f) :: rest
    else (k, g) :: assocUpdate rest key f

/-- Body of the grouping loop (lines 109-133 of `src/ai.py`): fragments
whose normalized candidate is empty are skipped. -/
def buildStep (groups : List (List Char × Group)) (f : Fragment) : List (List Char × Group) :=
  let key := normalize f.candidate
  if key = [] then groups else assocUpdate groups key f

def buildGroups (all_fragments : List Fragment) : List (List Char × Group) :=
  all_fragments.foldl buildStep []

/-- Specification helper: the fragments of `fs` whose normalization key is
`k`, in original order — for `k ≠ []` exactly the `candidates` list the
grouping loop accumulates under key `k`. -/
def fragsWithKey (fs : List Fragment) (k : List Char) : List Fragment :=
  fs.filter (fun f => decide (normalize f.candidate = k))

/-- Specification helper: group accumulation lifted to `Option`, starting a
fresh group on the first fragment. -/
def oStep (og : Option Group) (f : Fragment) : Option Group :=
  some (addFrag (og.getD emptyGroup) f)

/-- Python `round(x, 3)` idealized over `ℚ`. -/
def round3 (q : ℚ) : ℚ :=
  ((round (q * 1000) : ℤ) : ℚ) / 1000

/-- A scored group (lines 147-156 of `src/ai.py`). -/
structure ScoredGroup where
  key : List Char
  score : ℚ
  agentCount : Nat
  roundCount : Nat
  avgEntropy : ℚ
  rootAgent : String
  rootEntropy : ℚ
  candidate : String
deriving DecidableEq, Inhabited

/-- Scoring of one group (lines 140-156 of `src/ai.py`).  The
`root_candidate` is `some` whenever the group is non-empty (the code path
guarantees it); `getD default` is the total rendering of the Python field
access. -/
def scoreGroup (key : List Char) (g : Group) : ScoredGroup :=
  let agent_count := g.agents.card
  let round_count := g.rounds.card
  let avg_entropy := g.totalEntropy / (g.candidates.length : ℚ)
  { key := key
    score := round3 ((agent_count : ℚ) * 2 + (round_count : ℚ) * (3 / 2) + avg_entropy * 3)
    agentCount := agent_count
    roundCount := round_count
    avgEntropy := round3 avg_entropy
    rootAgent := (g.root_candidate.getD default).agentId
    rootEntropy := (g.root_candidate.getD default).entropy
    candidate := g.candidates.headI.candidate }

/-- The `scored_groups` list in discovery order (lines 136-156): one entry
per group, skipping groups with no candidates (the `continue`). -/
def scoredGroupsOf (all_fragments : List Fragment) : List ScoredGroup :=
  (buildGroups all_fragments).filterMap
    (fun kg => if kg.2.candidates.isEmpty then none else some (scoreGroup kg.1 kg.2))

/-- Stable descending insertion: an element passes over every earlier
element with a strictly larger-or-equal score, so equal scores keep their
original relative order.  Models `list.sort(key=lambda x: x.score,
reverse=True)` (a stable descending sort). -/
def insertDesc (x : ScoredGroup) : List ScoredGroup → List ScoredGroup
  | [] => [x]
  | y :: ys => if x.score ≥ y.score then x :: y :: ys else y :: insertDesc x ys

def sortDesc : List ScoredGroup → List ScoredGroup
  | [] => []
  | x :: xs => insertDesc x (sortDesc xs)

/-- The consensus dictionary (lines 158-179 of `src/ai.py`).  On the
degenerate path the Python dict omits `agentCount`, `roundCount`,
`avgEntropy`, `rootAgent` and `rootEntropy`; those fields are zero-filled
here and no claim reads them on that path. -/
structure ConsensusResult where
  genesis : String
  selectedCandidate : String
  score : ℚ
  agentCount : Nat
  roundCount : Nat
  avgEntropy : ℚ
  rootAgent : String
  rootEntropy : ℚ
  allGroups : List ScoredGroup
deriving DecidableEq, Inhabited

/-- `assemble_final_answer` (lines 104-179 of `src/ai.py`). -/
def assemble_final_answer (all_fragments : List Fragment) (genesis_hash : String) : ConsensusResult :=
  let scored_groups := scoredGroupsOf all_fragments
  if scored_groups.isEmpty then
    { genesis := genesis_hash
      selectedCandidate := "// No valid code candidates were generated by the agents."
      score := 0
      agentCount := 0, roundCount := 0, avgEntropy := 0, rootAgent := "", rootEntropy := 0
      allGroups := [] }
  else
    let sorted := sortDesc scored_groups
    let top_group := sorted.headI
    { genesis := genesis_hash
      selectedCandidate := top_group.candidate
      score := top_group.score
      agentCount := top_group.agentCount
      roundCount := top_group.roundCount
      avgEntropy := top_group.avgEntropy
      rootAgent := top_group.rootAgent
      rootEntropy := top_group.rootEntropy
      allGroups := sorted }

/-- Concrete fragment list (two agents, one round, identical candidate
text, entropy 3.2 each) instantiating the scoring claims. -/
def twoAgentsSameText : List Fragment :=
  [{ agentId := "agent-0", origin := "o1", round := 0, candidate := "x=1",
     entropy := 16 / 5, model := "m" },
   { agentId := "agent-1", origin := "o2", round := 0, candidate := "x=1",
     entropy := 16 / 5, model := "m" }]

/-- Concrete fragment list (two agents, one round, same normalized text
but different raw text and entropies) instantiating the selection claims. -/
def twoAgentsMetaText : List Fragment :=
  [{ agentId := "agent-0", origin := "o1", round := 0, candidate := "x=1",
     entropy := 1, model := "m" },
   { agentId := "agent-1", origin := "o2", round := 0, candidate := "// meta\nx=1",
     entropy := 2, model := "m" }]

/-! ### Model rotation -/

def OLLAMA_MODELS : List String :=
  ["gemma:latest", "deepseek-coder:latest", "gemma:latest", "deepseek-coder:latest", "gemma:latest"]

/-- `get_next_model` (lines 48-53 of `src/ai.py`): the global counter is
passed and returned explicitly; `models` is the configured global list
(`OLLAMA_MODELS` in the source). -/
def get_next_model (models : List String) (idx : Nat) : String × Nat :=
  (models.getD (idx % models.length) "", idx + 1)

/-- `k` consecutive `get_next_model` calls, collecting the returned model
identifiers and threading the counter. -/
def rotatorRun (models : List String) (idx : Nat) : Nat → List String × Nat
  | 0 => ([], idx)
  | k + 1 =>
    let mi := get_next_model models idx
    let rest := rotatorRun models mi.2 k
    (mi.1 :: rest.1, rest.2)

/-! ### Shannon entropy -/

/-- The loop of `calculate_entropy` (lines 35-46 of `src/ai.py`): summed
over the distinct characters, with  `probability = count / length` and
`entropy -= probability * math.log2(probability)`. -/
noncomputable def entropySum (l : List Char) : ℝ :=
  ∑ c in l.toFinset,
    -(((l.count c : ℝ) / (l.length : ℝ)) * Real.logb 2 ((l.count c : ℝ) / (l.length : ℝ)))

/-- `calculate_entropy` (lines 35-46 of `src/ai.py`): the 3-decimal-rounded
entropy; the rounded value is an exact rational. -/
noncomputable def calculate_entropy (s : String) : ℚ :=
  ((round (entropySum s.data * 1000) : ℤ) : ℚ) / 1000

/-! ### Orchestration -/

structure Agent where
  id : String
  origin : String
deriving DecidableEq, Inhabited

/-- The per-request mutable state of `orchestrate`: the agent list (origins
are mutated once per round), the accumulated fragments, and the global
model-rotation counter. -/
structure RunState where
  agents : List Agent
  fragments : List Fragment
  modelIdx : Nat
deriving DecidableEq, Inhabited

structure GenResult where
  candidate : String
  model : String
  success : Bool
deriving DecidableEq, Inhabited

def strategyFor (reasoning_depth : Nat) : String :=
  "Apply recursive reasoning (depth " ++ toString reasoning_depth ++ ") and fractal code structure."

/-- The `full_prompt` f-string of `perform_fractal_reasoning` (lines 66-75
of `src/ai.py`). -/
def fullPrompt (agent_id model prompt context : String) (round_num : Nat)
    (file_type : String) (reasoning_depth : Nat) : String :=
  "You are an expert coding agent (Agent ID: " ++ agent_id ++ ", Model: " ++ model ++ ").\n" ++
  "You are in round " ++ toString (round_num + 1) ++ " of a multi-agent consensus.\n" ++
  "Your assigned strategy is: \"" ++ strategyFor reasoning_depth ++ "\".\n" ++
  "Analyze the user's request and the provided code to generate an improved or new code snippet.\n\n" ++
  "USER REQUEST: \"" ++ prompt ++ "\"\n\n" ++
  "CODE CONTEXT (" ++ file_type ++ "):\n" ++
  "```\n" ++ context ++ "\n```\n\n" ++
  "Provide ONLY the generated code snippet as your response. Do not include explanations, apologies, or markdown formatting."

section Orchestrator

variable (sha256 : String → String)
variable (svc : String → String → Except String String)

/-- `perform_fractal_reasoning` (lines 57-102 of `src/ai.py`).  `svc`
abstracts the `requests.post` call to Ollama on the payload (model, full
prompt): `Except.ok` carries the `response` field of the JSON reply,
`Except.error` the message of the raised `RequestException`. -/
def perform_fractal_reasoning (agent_id model prompt context : String) (round_num : Nat)
    (origin : String) (file_type : String) (reasoning_depth : Nat) : GenResult :=
  let fp := fullPrompt agent_id model prompt context round_num file_type reasoning_depth
  match svc model fp with
  | Except.ok resp =>
    let code_candidate := pyStrip resp
    { candidate :=
        "// Agent: " ++ agent_id ++ " | Model: " ++ model ++
        " | Round: " ++ toString (round_num + 1) ++ "\n" ++
        "// Seed: " ++ origin.take 12 ++ "\n" ++ code_candidate
      model := model
      success := true }
  | Except.error e =>
    let error_msg := "Ollama connection error for agent " ++ agent_id ++ ": " ++ e
    { candidate := "// Agent " ++ agent_id ++ " failed to generate a response.\n// Error: " ++ error_msg
      model := model
      success := false }

/-- The fragment built for one agent in one round (lines 220-243 of
`src/ai.py`), given the model-rotation counter value `idx` at that call. -/
noncomputable def fragOf (prompt context file_type : String) (reasoning_depth : Nat)
    (genesis : String) (round_num : Nat) (idx : Nat) (a : Agent) : Fragment :=
  let model := OLLAMA_MODELS.getD (idx % OLLAMA_MODELS.length) ""
  let result := perform_fractal_reasoning svc a.id model prompt context round_num a.origin file_type reasoning_depth
  let new_origin := sha256 (a.origin ++ genesis ++ toString round_num)
  { agentId := a.id
    origin := new_origin
    round := round_num
    candidate := result.candidate
    entropy := calculate_entropy new_origin
    model := model }

/-- The body of the inner `for agent in agents` loop (lines 220-243 of
`src/ai.py`): the processed agent is re-appended with its advanced origin,
the fragment is appended, the model counter advances. -/
noncomputable def agentBody (prompt context file_type : String) (reasoning_depth : Nat)
    (genesis : String) (round_num : Nat) (st : RunState) (a : Agent) : RunState :=
  let mi := get_next_model OLLAMA_MODELS st.modelIdx
  let result := perform_fractal_reasoning svc a.id mi.1 prompt context round_num a.origin file_type reasoning_depth
  let new_origin := sha256 (a.origin ++ genesis ++ toString round_num)
  let frag : Fragment :=
    { agentId := a.id
      origin := new_origin
      round := round_num
      candidate := result.candidate
      entropy := calculate_entropy new_origin
      model := mi.1 }
  { agents := st.agents ++ [{ id := a.id, origin := new_origin }]
    fragments := st.fragments ++ [frag]
    modelIdx := mi.2 }

/-- One orchestration round (lines 215-249 of `src/ai.py`). -/
noncomputable def runRound (prompt context file_type : String) (reasoning_depth : Nat)
    (genesis : String) (round_num : Nat) (st : RunState) : RunState :=
  st.agents.foldl (agentBody sha256 svc prompt context file_type reasoning_depth genesis round_num)
    { agents := [], fragments := st.fragments, modelIdx := st.modelIdx }

/-- Agent initialization (lines 208-212 of `src/ai.py`); `nonce i` models
the `str(random.random())` drawn for the i-th agent. -/
def initAgents (nonce : Nat → String) (genesis : String) (agent_count : Nat) : List Agent :=
  (List.range agent_count).map
    (fun i => { id := "agent-" ++ toString i
                origin := sha256 (genesis ++ ("agent-" ++ toString i) ++ nonce i) })

/-- The `orchestrate` request handler core (lines 184-253 of `src/ai.py`):
genesis hash, agent initialization, and the round loop.  `now` models
`str(time.time())`; `modelIdx0` is the value of the process-global
`ollama_model_index` when the request starts. -/
noncomputable def orchestrate (nonce : Nat → String) (now editor_context prompt_text : String)
    (agent_count max_rounds reasoning_depth : Nat) (file_type : String) (modelIdx0 : Nat) : RunState :=
  let genesis := sha256 ("GENESIS" ++ now ++ editor_context)
  (List.range max_rounds).foldl
    (fun st r => runRound sha256 svc prompt_text editor_context file_type reasoning_depth genesis r st)
    { agents := initAgents sha256 nonce genesis agent_count
      fragments := []
      modelIdx := modelIdx0 }

/-- Specification helper: the origin hash chain.  `chainOrigin g o r` is an
agent's origin after `r` completed rounds, starting from initial origin
`o`, per `new_origin = sha256(origin + genesis + str(round))`. -/
def chainOrigin (genesis o : String) : Nat → String
  | 0 => o
  | r + 1 => sha256 (chainOrigin genesis o r ++ genesis ++ toString r)

/-- Specification helper: the agent list as it stands when round `r`
begins. -/
def agentsAtRound (genesis : String) (ags : List Agent) (r : Nat) : List Agent :=
  ags.map (fun a => { id := a.id, origin := chainOrigin sha256 genesis a.origin r })

/-- Specification helper: the fragment block appended by one round, the
model counter starting at `idx`. -/
noncomputable def roundFrags (prompt context file_type : String) (reasoning_depth : Nat)
    (genesis : String) (round_num : Nat) (idx : Nat) : List Agent → List Fragment
  | [] => []
  | a :: as =>
    fragOf sha256 svc prompt context file_type reasoning_depth genesis round_num idx a ::
      roundFrags prompt context file_type reasoning_depth genesis round_num (idx + 1) as

/-- Specification helper: all fragments produced by the first `m` rounds. -/
noncomputable def fragsUpTo (prompt context file_type : String) (reasoning_depth : Nat)
    (genesis : String) (ags : List Agent) (idx0 : Nat) : Nat → List Fragment
  | 0 => []
  | m + 1 =>
    fragsUpTo prompt context file_type reasoning_depth genesis ags idx0 m ++
      roundFrags sha256 svc prompt context file_type reasoning_depth genesis m (idx0 + m * ags.length)
        (agentsAtRound sha256 genesis ags m)

end Orchestrator

/-- Specification helper: the genesis hash computed by `orchestrate`. -/
def genesisOf (sha256 : String → String) (now editor_context : String) : String :=
  sha256 ("GENESIS" ++ now ++ editor_context)

/-- Specification helper: agent i's randomized initial origin. -/
def initOrigin (sha256 : String → String) (nonce : Nat → String)
    (now editor_context : String) (i : Nat) : String :=
  sha256 (genesisOf sha256 now editor_context ++ ("agent-" ++ toString i) ++ nonce i)

/-! ### Specification predicates -/

/-- `r` is the first fragment of `l` attaining the maximal entropy: every
earlier fragment has strictly smaller entropy, every later one has at most
its entropy. -/
def FirstMax (l : List Fragment) (r : Fragment) : Prop :=
  ∃ l1 l2, l = l1 ++ r :: l2 ∧ (∀ x ∈ l1, x.entropy < r.entropy) ∧ (∀ x ∈ l2, x.entropy ≤ r.entropy)

/-- A candidate text on which the normalization is pure identity: no line
is a comment line, no literal `\s` substring, no boundary whitespace. -/
def CleanText (s : String) : Prop :=
  (∀ l ∈ splitLines s.data, isCommentLine l = false) ∧
  removeBS s.data = s.data ∧
  stripChars s.data = s.data

/-! ### Model rotation: claim C7 -/

theorem rotatorRun_closed (models : List String) :
    ∀ (k c : Nat), rotatorRun models c k =
      (((List.range k).map fun j => models.getD ((c + j) % models.length) ""), c + k) := by
  intro k
  induction k with
  | zero => intro c; simp [rotatorRun]
  | succ k ih =>
    intro c
    have harith : ∀ j : Nat, c + 1 + j = c + (j + 1) := fun j => by omega
    simp [rotatorRun, get_next_model, ih (c + 1), List.range_succ_eq_map, List.map_map,
      Function.comp, harith]

/-- Claim C7: a `get_next_model` call with counter `c` over the configured
model list returns the model at index `c mod n` and increments the counter;
consequently the models returned over `k` consecutive calls are exactly
`models[(c + j) mod n]` for `j = 0..k-1`, determined by the starting
counter and the list alone. -/
theorem model_rotation_spec (models : List String) (c k : Nat) (h : 0 < models.length) :
    get_next_model models c = (models.get ⟨c % models.length, Nat.mod_lt c h⟩, c + 1) ∧
    rotatorRun models c k =
      (((List.range k).map fun j => models.getD ((c + j) % models.length) ""), c + k) := by
  constructor
  · simp only [get_next_model, Prod.mk.injEq, and_true]
    rw [List.getD_eq_getElem _ _ (Nat.mod_lt c h)]
    simp
  · exact rotatorRun_closed models k c

/-- Witness for C7 at the configured `OLLAMA_MODELS` list, counter 0 and
seven consecutive calls. -/
theorem model_rotation_spec_witness :
    rotatorRun OLLAMA_MODELS 0 7 =
      (((List.range 7).map fun j => OLLAMA_MODELS.getD ((0 + j) % OLLAMA_MODELS.length) ""), 0 + 7) :=
  (model_rotation_spec OLLAMA_MODELS 0 7 (by decide)).2

/-! ### Entropy of the empty string: claim C9 -/

/-- Claim C9: on the empty string the frequency table is empty, the
entropy loop body (which divides by the string length) is never entered —
the summation domain is empty — and `calculate_entropy` returns 0 without
error. -/
theorem entropy_empty_string :
    ("" : String).data.toFinset = ∅ ∧ entropySum ("" : String).data = 0 ∧
      calculate_entropy "" = 0 := by
  have hd : ("" : String).data = [] := rfl
  refine ⟨by rw [hd]; rfl, ?_, ?_⟩
  · rw [hd]; simp [entropySum]
  · have hs : entropySum ("" : String).data = 0 := by rw [hd]; simp [entropySum]
    simp [calculate_entropy, hs]

/-! ### Degenerate assembly: claim C4 -/

theorem foldl_buildStep_empty_keys (fs : List Fragment) :
    ∀ G, (∀ f ∈ fs, normalize f.candidate = []) → fs.foldl buildStep G = G := by
  induction fs with
  | nil => intro G _; rfl
  | cons f tl ih =>
    intro G h
    have hf : normalize f.candidate = [] := h f (List.mem_cons_self f tl)
    have hstep : buildStep G f = G := by simp [buildStep, hf]
    simp only [List.foldl_cons, hstep]
    exact ih G (fun x hx => h x (List.mem_cons_of_mem f hx))

/-- Claim C4 counterexample: on the empty fragment list the assembler does
return score 0 and an empty group list, but the selected candidate is the
fixed placeholder string, not the empty string the claim asserts. -/
theorem degenerate_empty_candidate_counterexample :
    (assemble_final_answer [] "g").selectedCandidate =
      "// No valid code candidates were generated by the agents." ∧
    (assemble_final_answer [] "g").selectedCandidate ≠ "" ∧
    (assemble_final_answer [] "g").score = 0 ∧
    (assemble_final_answer [] "g").allGroups = [] := by
  refine ⟨rfl, by decide, rfl, rfl⟩

/-- Claim C4 (amended): for every fragment list in which no group is formed
(the list is empty, or every fragment's normalized text is empty), the
assembler returns the degenerate result whose selected candidate is the
fixed placeholder string "// No valid code candidates were generated by
the agents.", with score 0 and an empty group list. -/
theorem degenerate_result_spec (fs : List Fragment) (g : String)
    (h : ∀ f ∈ fs, normalize f.candidate = []) :
    (assemble_final_answer fs g).selectedCandidate =
      "// No valid code candidates were generated by the agents." ∧
    (assemble_final_answer fs g).score = 0 ∧
    (assemble_final_answer fs g).allGroups = [] := by
  have hb : buildGroups fs = [] := foldl_buildStep_empty_keys fs [] h
  have hsc : scoredGroupsOf fs = [] := by simp [scoredGroupsOf, hb]
  simp [assemble_final_answer, hsc]

/-! ### Group-fold characterization -/

theorem addFrag_root (g : Group) (f : Fragment) :
    (addFrag g f).root_candidate = rootStep g.root_candidate f := rfl

theorem foldl_addFrag_candidates (l : List Fragment) :
    ∀ g, (l.foldl addFrag g).candidates = g.candidates ++ l := by
  induction l with
  | nil => intro g; simp
  | cons f tl ih =>
    intro g
    simp only [List.foldl_cons, ih]
    simp [addFrag]

theorem foldl_addFrag_totalEntropy (l : List Fragment) :
    ∀ g, (l.foldl addFrag g).totalEntropy = g.totalEntropy + (l.map Fragment.entropy).sum := by
  induction l with
  | nil => intro g; simp
  | cons f tl ih =>
    intro g
    simp only [List.foldl_cons, ih]
    simp [addFrag, add_assoc]

theorem foldl_addFrag_agents (l : List Fragment) :
    ∀ g, (l.foldl addFrag g).agents = g.agents ∪ (l.map Fragment.agentId).toFinset := by
  induction l with
  | nil => intro g; simp
  | cons f tl ih =>
    intro g
    simp only [List.foldl_cons, ih]
    simp [addFrag, Finset.insert_union, Finset.union_insert]

theorem foldl_addFrag_rounds (l : List Fragment) :
    ∀ g, (l.foldl addFrag g).rounds = g.rounds ∪ (l.map Fragment.round).toFinset := by
  induction l with
  | nil => intro g; simp
  | cons f tl ih =>
    intro g
    simp only [List.foldl_cons, ih]
    simp [addFrag, Finset.insert_union, Finset.union_insert]

theorem foldl_addFrag_root (l : List Fragment) :
    ∀ g, (l.foldl addFrag g).root_candidate = l.foldl rootStep g.root_candidate := by
  induction l with
  | nil => intro g; rfl
  | cons f tl ih =>
    intro g
    simp only [List.foldl_cons, ih, addFrag_root]

theorem mkGroupOf_candidates (l : List Fragment) : (mkGroupOf l).candidates = l := by
  rw [mkGroupOf, foldl_addFrag_candidates]
  rfl

theorem mkGroupOf_totalEntropy (l : List Fragment) :
    (mkGroupOf l).totalEntropy = (l.map Fragment.entropy).sum := by
  rw [mkGroupOf, foldl_addFrag_totalEntropy]
  simp [emptyGroup]

theorem mkGroupOf_agents (l : List Fragment) :
    (mkGroupOf l).agents = (l.map Fragment.agentId).toFinset := by
  rw [mkGroupOf, foldl_addFrag_agents]
  simp [emptyGroup]

theorem mkGroupOf_rounds (l : List Fragment) :
    (mkGroupOf l).rounds = (l.map Fragment.round).toFinset := by
  rw [mkGroupOf, foldl_addFrag_rounds]
  simp [emptyGroup]

theorem rootStep_fold_firstMax (l : List Fragment) :
    ∀ (p : List Fragment) (r : Fragment), FirstMax p r →
      ∃ r2, l.foldl rootStep (some r) = some r2 ∧ FirstMax (p ++ l) r2 := by
  induction l with
  | nil => intro p r h; exact ⟨r, rfl, by simpa using h⟩
  | cons f tl ih =>
    intro p r h
    by_cases hf : f.entropy > r.entropy
    · have h2 : FirstMax (p ++ [f]) f := by
        obtain ⟨l1, l2, hp, h1, hl2⟩ := h
        refine ⟨p, [], by simp, ?_, by simp⟩
        intro x hx
        rw [hp] at hx
        rcases List.mem_append.1 hx with hx1 | hx2
        · exact lt_trans (h1 x hx1) hf
        · rcases List.mem_cons.1 hx2 with hxr | hx3
          · rw [hxr]; exact hf
          · exact lt_of_le_of_lt (hl2 x hx3) hf
      obtain ⟨r2, hfold, hfm⟩ := ih (p ++ [f]) f h2
      refine ⟨r2, ?_, ?_⟩
      · simpa [rootStep, hf] using hfold
      · simpa [List.append_assoc] using hfm
    · have h2 : FirstMax (p ++ [f]) r := by
        obtain ⟨l1, l2, hp, h1, hl2⟩ := h
        refine ⟨l1, l2 ++ [f], by rw [hp]; simp, h1, ?_⟩
        intro x hx
        rcases List.mem_append.1 hx with hx1 | hx2
        · exact hl2 x hx1
        · rw [List.mem_singleton.1 hx2]
          exact le_of_not_lt hf
      obtain ⟨r2, hfold, hfm⟩ := ih (p ++ [f]) r h2
      refine ⟨r2, ?_, ?_⟩
      · simpa [rootStep, hf] using hfold
      · simpa [List.append_assoc] using hfm

theorem mkGroupOf_root (l : List Fragment) (hl : l ≠ []) :
    ∃ r, (mkGroupOf l).root_candidate = some r ∧ FirstMax l r := by
  match l, hl with
  | f :: tl, _ =>
    have h0 : FirstMax [f] f := ⟨[], [], rfl, by simp, by simp⟩
    obtain ⟨r2, hfold, hfm⟩ := rootStep_fold_firstMax tl [f] f h0
    refine ⟨r2, ?_, by simpa using hfm⟩
    rw [mkGroupOf, foldl_addFrag_root]
    simpa [rootStep, emptyGroup] using hfold

/-! ### Association-list characterization of `candidate_groups` -/

theorem lookupG_assocUpdate_self (G : List (List Char × Group)) (k : List Char) (f : Fragment) :
    lookupG (assocUpdate G k f) k = some (addFrag ((lookupG G k).getD emptyGroup) f) := by
  induction G with
  | nil => simp [assocUpdate, lookupG]
  | cons kg tl ih =>
    obtain ⟨k1, g1⟩ := kg
    by_cases h : k1 = k
    · subst h; simp [assocUpdate, lookupG]
    · simp [assocUpdate, lookupG, h, ih]

theorem lookupG_assocUpdate_other (G : List (List Char × Group)) (k k2 : List Char)
    (f : Fragment) (h : k ≠ k2) :
    lookupG (assocUpdate G k2 f) k = lookupG G k := by
  have hsym : ¬ (k2 = k) := fun hh => h hh.symm
  induction G with
  | nil => simp [assocUpdate, lookupG, hsym]
  | cons kg tl ih =>
    obtain ⟨k1, g1⟩ := kg
    by_cases h1 : k1 = k2
    · subst h1
      have hk : ¬ (k1 = k) := fun hh => h (hh.symm.trans rfl)
      simp [assocUpdate, lookupG, hk]
    · by_cases h2 : k1 = k
      · subst h2; simp [assocUpdate, lookupG, h1]
      · simp [assocUpdate, lookupG, h1, h2, ih]

theorem foldl_oStep_some (l : List Fragment) :
    ∀ g, l.foldl oStep (some g) = some (l.foldl addFrag g) := by
  induction l with
  | nil => intro g; rfl
  | cons f tl ih =>
    intro g
    simp only [List.foldl_cons]
    rw [show oStep (some g) f = some (addFrag g f) from rfl, ih]

theorem lookupG_foldl_buildStep (fs : List Fragment) :
    ∀ (G : List (List Char × Group)) (k : List Char), k ≠ [] →
      lookupG (fs.foldl buildStep G) k = (fragsWithKey fs k).foldl oStep (lookupG G k) := by
  induction fs with
  | nil => intro G k _; rfl
  | cons f tl ih =>
    intro G k hk
    simp only [List.foldl_cons]
    by_cases hkey : normalize f.candidate = []
    · have hne : ¬ (normalize f.candidate = k) := by
        rw [hkey]; exact fun h => hk h.symm
      have hstep : buildStep G f = G := by simp [buildStep, hkey]
      have hfilter : fragsWithKey (f :: tl) k = fragsWithKey tl k := by
        simp [fragsWithKey, List.filter_cons, hne]
      rw [hstep, hfilter]
      exact ih G k hk
    · by_cases heq : normalize f.candidate = k
      · have hstep : buildStep G f = assocUpdate G k f := by
          rw [buildStep, if_neg hkey, heq]
        have hfilter : fragsWithKey (f :: tl) k = f :: fragsWithKey tl k := by
          simp [fragsWithKey, List.filter_cons, heq]
        rw [hstep, hfilter, List.foldl_cons, ih (assocUpdate G k f) k hk,
          lookupG_assocUpdate_self]
        rfl
      · have hstep : buildStep G f = assocUpdate G (normalize f.candidate) f := by
          rw [buildStep, if_neg hkey]
        have hfilter : fragsWithKey (f :: tl) k = fragsWithKey tl k := by
          simp [fragsWithKey, List.filter_cons, heq]
        rw [hstep, hfilter, ih _ k hk,
          lookupG_assocUpdate_other _ _ _ _ (fun h => heq h.symm)]

theorem buildGroups_lookup (fs : List Fragment) (k : List Char) (hk : k ≠ []) :
    lookupG (buildGroups fs) k =
      if fragsWithKey fs k = [] then none else some (mkGroupOf (fragsWithKey fs k)) := by
  rw [buildGroups, lookupG_foldl_buildStep fs [] k hk]
  cases hl : fragsWithKey fs k with
  | nil => rfl
  | cons f tl =>
    simp only [List.foldl_cons]
    rw [show oStep (lookupG [] k) f = some (addFrag emptyGroup f) from rfl, foldl_oStep_some]
    simp [mkGroupOf]

theorem assocUpdate_fst (G : List (List Char × Group)) (k : List Char) (f : Fragment) :
    (assocUpdate G k f).map Prod.fst =
      if k ∈ G.map Prod.fst then G.map Prod.fst else G.map Prod.fst ++ [k] := by
  induction G with
  | nil => simp [assocUpdate]
  | cons kg tl ih =>
    obtain ⟨k1, g1⟩ := kg
    by_cases h : k1 = k
    · subst h; simp [assocUpdate]
    · have hkk1 : ¬ (k = k1) := fun hh => h hh.symm
      by_cases h2 : k ∈ tl.map Prod.fst
      · simp [assocUpdate, h, ih, h2, hkk1]
      · simp [assocUpdate, h, ih, h2, hkk1]

theorem buildStep_nodupKeys (G : List (List Char × Group)) (f : Fragment)
    (h : (G.map Prod.fst).Nodup) : ((buildStep G f).map Prod.fst).Nodup := by
  by_cases hkey : normalize f.candidate = []
  · simpa [buildStep, hkey]
  · rw [buildStep, if_neg hkey, assocUpdate_fst]
    by_cases h2 : normalize f.candidate ∈ G.map Prod.fst
    · simpa [h2]
    · rw [if_neg h2]
      simp [List.nodup_append, h, h2]

theorem foldl_buildStep_nodupKeys (fs : List Fragment) :
    ∀ G, (G.map Prod.fst).Nodup → ((fs.foldl buildStep G).map Prod.fst).Nodup := by
  induction fs with
  | nil => intro G h; exact h
  | cons f tl ih => intro G h; exact ih _ (buildStep_nodupKeys G f h)

theorem buildGroups_nodupKeys (fs : List Fragment) : ((buildGroups fs).map Prod.fst).Nodup :=
  foldl_buildStep_nodupKeys fs [] (by simp)

theorem mem_assocUpdate_cases (k : List Char) (f : Fragment) :
    ∀ (G : List (List Char × Group)), ∀ kg ∈ assocUpdate G k f, kg.1 = k ∨ kg ∈ G := by
  intro G
  induction G with
  | nil => intro kg hkg; simp only [assocUpdate, List.mem_singleton] at hkg; left; rw [hkg]
  | cons kg1 tl ih =>
    obtain ⟨k1, g1⟩ := kg1
    intro kg hkg
    by_cases h : k1 = k
    · subst h
      simp only [assocUpdate, if_pos rfl] at hkg
      rcases List.mem_cons.1 hkg with heq | htl
      · left; rw [heq]
      · right; exact List.mem_cons_of_mem _ htl
    · simp only [assocUpdate, if_neg h] at hkg
      rcases List.mem_cons.1 hkg with heq | htl
      · right; rw [heq]; exact List.mem_cons_self _ _
      · rcases ih kg htl with hl | hr
        · left; exact hl
        · right; exact List.mem_cons_of_mem _ hr

theorem foldl_buildStep_keys_ne (fs : List Fragment) :
    ∀ G, (∀ kg ∈ G, kg.1 ≠ ([] : List Char)) →
      ∀ kg ∈ fs.foldl buildStep G, kg.1 ≠ ([] : List Char) := by
  induction fs with
  | nil => intro G h; exact h
  | cons f tl ih =>
    intro G h
    apply ih
    intro kg hkg
    by_cases hkey : normalize f.candidate = []
    · rw [buildStep, if_pos hkey] at hkg
      exact h kg hkg
    · rw [buildStep, if_neg hkey] at hkg
      rcases mem_assocUpdate_cases _ f G kg hkg with h1 | h2
      · rw [h1]; exact hkey
      · exact h kg h2

theorem lookupG_eq_some_of_mem (k : List Char) (g : Group) :
    ∀ (G : List (List Char × Group)), (G.map Prod.fst).Nodup → (k, g) ∈ G →
      lookupG G k = some g := by
  intro G
  induction G with
  | nil => intro _ hmem; cases hmem
  | cons kg tl ih =>
    obtain ⟨k1, g1⟩ := kg
    intro hnd hmem
    rcases List.mem_cons.1 hmem with heq | htl
    · injection heq with h1 h2
      subst h1; subst h2
      simp [lookupG]
    · have hkmem : k ∈ tl.map Prod.fst := List.mem_map.2 ⟨(k, g), htl, rfl⟩
      simp only [List.map_cons, List.nodup_cons] at hnd
      have hne : ¬ (k1 = k) := fun h => hnd.1 (h ▸ hkmem)
      simp only [lookupG, if_neg hne]
      exact ih hnd.2 htl

theorem mem_buildGroups_spec (fs : List Fragment) (k : List Char) (g : Group)
    (h : (k, g) ∈ buildGroups fs) :
    k ≠ [] ∧ fragsWithKey fs k ≠ [] ∧ g = mkGroupOf (fragsWithKey fs k) := by
  have hk : k ≠ [] := foldl_buildStep_keys_ne fs [] (by simp) (k, g) h
  have hl := lookupG_eq_some_of_mem k g (buildGroups fs) (buildGroups_nodupKeys fs) h
  rw [buildGroups_lookup fs k hk] at hl
  by_cases hf : fragsWithKey fs k = []
  · rw [if_pos hf] at hl; cases hl
  · rw [if_neg hf] at hl
    exact ⟨hk, hf, (Option.some.inj hl).symm⟩

/-! ### Stable descending sort -/

theorem insertDesc_perm (x : ScoredGroup) :
    ∀ l, List.Perm (insertDesc x l) (x :: l) := by
  intro l
  induction l with
  | nil => simp [insertDesc]
  | cons y ys ih =>
    by_cases h : x.score ≥ y.score
    · simp [insertDesc, h]
    · rw [insertDesc, if_neg h]
      exact (ih.cons y).trans (List.Perm.swap x y ys)

theorem sortDesc_perm (l : List ScoredGroup) : List.Perm (sortDesc l) l := by
  induction l with
  | nil => simp [sortDesc]
  | cons x xs ih =>
    exact (insertDesc_perm x (sortDesc xs)).trans (ih.cons x)

theorem mem_insertDesc (x z : ScoredGroup) (l : List ScoredGroup) :
    z ∈ insertDesc x l ↔ z = x ∨ z ∈ l := by
  rw [(insertDesc_perm x l).mem_iff, List.mem_cons]

theorem insertDesc_sorted (x : ScoredGroup) :
    ∀ l, List.Pairwise (fun a b => b.score ≤ a.score) l →
      List.Pairwise (fun a b => b.score ≤ a.score) (insertDesc x l) := by
  intro l
  induction l with
  | nil => intro _; simp [insertDesc]
  | cons y ys ih =>
    intro hp
    rcases List.pairwise_cons.1 hp with ⟨hy, hys⟩
    by_cases h : x.score ≥ y.score
    · rw [insertDesc, if_pos h]
      refine List.pairwise_cons.2 ⟨?_, hp⟩
      intro z hz
      rcases List.mem_cons.1 hz with hz1 | hz2
      · rw [hz1]; exact h
      · exact le_trans (hy z hz2) h
    · rw [insertDesc, if_neg h]
      refine List.pairwise_cons.2 ⟨?_, ih hys⟩
      intro z hz
      rcases (mem_insertDesc x z ys).1 hz with hz1 | hz2
      · rw [hz1]; exact le_of_not_le h
      · exact hy z hz2

theorem sortDesc_sorted (l : List ScoredGroup) :
    List.Pairwise (fun a b => b.score ≤ a.score) (sortDesc l) := by
  induction l with
  | nil => simp [sortDesc]
  | cons x xs ih => exact insertDesc_sorted x (sortDesc xs) ih

theorem insertDesc_filter (x : ScoredGroup) (v : ℚ) :
    ∀ l, (insertDesc x l).filter (fun y => decide (y.score = v)) =
      if x.score = v then x :: l.filter (fun y => decide (y.score = v))
      else l.filter (fun y => decide (y.score = v)) := by
  intro l
  induction l with
  | nil =>
    by_cases hx : x.score = v
    · simp [insertDesc, List.filter, hx]
    · simp [insertDesc, List.filter, hx]
  | cons y ys ih =>
    by_cases h : x.score ≥ y.score
    · rw [insertDesc, if_pos h]
      by_cases hx : x.score = v
      · simp [List.filter_cons, hx]
      · simp [List.filter_cons, hx]
    · rw [insertDesc, if_neg h]
      have hlt : x.score < y.score := lt_of_not_le h
      by_cases hy : y.score = v
      · have hx : ¬ (x.score = v) := by
          intro hxv
          exact absurd (hxv.trans hy.symm ▸ le_refl x.score) (by rw [hxv, ← hy] at hlt; exact absurd hlt (lt_irrefl _))
        simp [List.filter_cons, hy, ih, hx]
      · by_cases hx : x.score = v
        · simp [List.filter_cons, hy, ih, hx]
        · simp [List.filter_cons, hy, ih, hx]

theorem sortDesc_filter (l : List ScoredGroup) (v : ℚ) :
    (sortDesc l).filter (fun y => decide (y.score = v)) =
      l.filter (fun y => decide (y.score = v)) := by
  induction l with
  | nil => rfl
  | cons x xs ih =>
    rw [sortDesc, insertDesc_filter, List.filter_cons]
    by_cases hx : x.score = v
    · simp [hx, ih]
    · simp [hx, ih]

/-! ### Scored-group characterization -/

theorem mem_scoredGroupsOf (fs : List Fragment) (sg : ScoredGroup)
    (h : sg ∈ scoredGroupsOf fs) :
    ∃ g : Group, (sg.key, g) ∈ buildGroups fs ∧ g.candidates ≠ [] ∧
      sg = scoreGroup sg.key g := by
  obtain ⟨kg, hmem, heq⟩ := List.mem_filterMap.1 h
  obtain ⟨k1, g1⟩ := kg
  by_cases he : g1.candidates.isEmpty
  · rw [if_pos he] at heq; cases heq
  · rw [if_neg he] at heq
    have hkey : sg.key = k1 := by rw [← Option.some.inj heq]; rfl
    refine ⟨g1, ?_, ?_, ?_⟩
    · rw [hkey]; exact hmem
    · intro hnil
      exact he (by rw [hnil]; rfl)
    · rw [hkey, Option.some.inj heq]

/-- The data of each entry of `scored_groups`, expressed against the
original fragment list: counts are distinct-count over the group's
fragments, the score follows the formula, the reported candidate is the
first-inserted fragment's text, and the root fields come from the first
maximal-entropy fragment. -/
theorem scoredGroup_spec (fs : List Fragment) (sg : ScoredGroup)
    (h : sg ∈ scoredGroupsOf fs) :
    fragsWithKey fs sg.key ≠ [] ∧
    sg.agentCount = ((fragsWithKey fs sg.key).map Fragment.agentId).toFinset.card ∧
    sg.roundCount = ((fragsWithKey fs sg.key).map Fragment.round).toFinset.card ∧
    sg.score = round3 ((sg.agentCount : ℚ) * 2 + (sg.roundCount : ℚ) * (3 / 2) +
      (((fragsWithKey fs sg.key).map Fragment.entropy).sum /
        ((fragsWithKey fs sg.key).length : ℚ)) * 3) ∧
    sg.avgEntropy = round3 (((fragsWithKey fs sg.key).map Fragment.entropy).sum /
        ((fragsWithKey fs sg.key).length : ℚ)) ∧
    sg.candidate = (fragsWithKey fs sg.key).headI.candidate ∧
    ∃ r, FirstMax (fragsWithKey fs sg.key) r ∧
      sg.rootAgent = r.agentId ∧ sg.rootEntropy = r.entropy := by
  obtain ⟨g, hmem, _, hsg⟩ := mem_scoredGroupsOf fs sg h
  obtain ⟨hk, hfne, hg⟩ := mem_buildGroups_spec fs sg.key g hmem
  subst hg
  obtain ⟨r, hroot, hfm⟩ := mkGroupOf_root (fragsWithKey fs sg.key) hfne
  have hAgents : sg.agentCount = ((fragsWithKey fs sg.key).map Fragment.agentId).toFinset.card := by
    rw [congrArg ScoredGroup.agentCount hsg]
    show (mkGroupOf (fragsWithKey fs sg.key)).agents.card = _
    rw [mkGroupOf_agents]
  have hRounds : sg.roundCount = ((fragsWithKey fs sg.key).map Fragment.round).toFinset.card := by
    rw [congrArg ScoredGroup.roundCount hsg]
    show (mkGroupOf (fragsWithKey fs sg.key)).rounds.card = _
    rw [mkGroupOf_rounds]
  have hScore : sg.score = round3
      (((((fragsWithKey fs sg.key).map Fragment.agentId).toFinset.card : ℚ)) * 2 +
        ((((fragsWithKey fs sg.key).map Fragment.round).toFinset.card : ℚ)) * (3 / 2) +
        ((fragsWithKey fs sg.key).map Fragment.entropy).sum /
          ((fragsWithKey fs sg.key).length : ℚ) * 3) := by
    rw [congrArg ScoredGroup.score hsg]
    show round3 (((mkGroupOf (fragsWithKey fs sg.key)).agents.card : ℚ) * 2 +
      ((mkGroupOf (fragsWithKey fs sg.key)).rounds.card : ℚ) * (3 / 2) +
      (mkGroupOf (fragsWithKey fs sg.key)).totalEntropy /
        ((mkGroupOf (fragsWithKey fs sg.key)).candidates.length : ℚ) * 3) = _
    rw [mkGroupOf_agents, mkGroupOf_rounds, mkGroupOf_totalEntropy, mkGroupOf_candidates]
  refine ⟨hfne, hAgents, hRounds, ?_, ?_, ?_, r, hfm, ?_, ?_⟩
  · rw [hAgents, hRounds]
    exact hScore
  · rw [congrArg ScoredGroup.avgEntropy hsg]
    show round3 ((mkGroupOf (fragsWithKey fs sg.key)).totalEntropy /
        ((mkGroupOf (fragsWithKey fs sg.key)).candidates.length : ℚ)) = _
    rw [mkGroupOf_totalEntropy, mkGroupOf_candidates]
  · rw [congrArg ScoredGroup.candidate hsg]
    show (mkGroupOf (fragsWithKey fs sg.key)).candidates.headI.candidate = _
    rw [mkGroupOf_candidates]
  · rw [congrArg ScoredGroup.rootAgent hsg]
    show ((mkGroupOf (fragsWithKey fs sg.key)).root_candidate.getD default).agentId = _
    rw [hroot]
    rfl
  · rw [congrArg ScoredGroup.rootEntropy hsg]
    show ((mkGroupOf (fragsWithKey fs sg.key)).root_candidate.getD default).entropy = _
    rw [hroot]
    rfl

theorem mem_allGroups (fs : List Fragment) (g : String) (sg : ScoredGroup)
    (h : sg ∈ (assemble_final_answer fs g).allGroups) : sg ∈ scoredGroupsOf fs := by
  by_cases he : (scoredGroupsOf fs).isEmpty = true
  · simp [assemble_final_answer, he] at h
  · simp only [assemble_final_answer, he, Bool.false_eq_true, if_false] at h
    exact (sortDesc_perm (scoredGroupsOf fs)).mem_iff.1 h

/-! ### Score formula: claim C1 -/

/-- Claim C1: every group assembled by the consensus assembler has
`score = round3(agentCount * 2 + roundCount * 1.5 + avgEntropy * 3)`,
where `agentCount` is the number of distinct agent ids among the group's
fragments, `roundCount` the number of distinct round indices, and
`avgEntropy` the group's entropy sum divided by its number of fragments;
in particular `agentCount = 2`, `roundCount = 1` and `avgEntropy = 3.200`
force `score = 15.1`. -/
theorem score_formula_spec (fs : List Fragment) (g : String) (sg : ScoredGroup)
    (hmem : sg ∈ (assemble_final_answer fs g).allGroups) :
    fragsWithKey fs sg.key ≠ [] ∧
    sg.agentCount = ((fragsWithKey fs sg.key).map Fragment.agentId).toFinset.card ∧
    sg.roundCount = ((fragsWithKey fs sg.key).map Fragment.round).toFinset.card ∧
    sg.score = round3 ((sg.agentCount : ℚ) * 2 + (sg.roundCount : ℚ) * (3 / 2) +
      ((fragsWithKey fs sg.key).map Fragment.entropy).sum /
        ((fragsWithKey fs sg.key).length : ℚ) * 3) ∧
    (sg.agentCount = 2 → sg.roundCount = 1 →
      ((fragsWithKey fs sg.key).map Fragment.entropy).sum /
        ((fragsWithKey fs sg.key).length : ℚ) = 16 / 5 →
      sg.score = 151 / 10) := by
  obtain ⟨h1, h2, h3, h4, _, _, _⟩ := scoredGroup_spec fs sg (mem_allGroups fs g sg hmem)
  have hscore : sg.score = round3 ((sg.agentCount : ℚ) * 2 + (sg.roundCount : ℚ) * (3 / 2) +
      ((fragsWithKey fs sg.key).map Fragment.entropy).sum /
        ((fragsWithKey fs sg.key).length : ℚ) * 3) := by
    rw [h2, h3] at h4 ⊢
    exact h4
  refine ⟨h1, h2, h3, hscore, ?_⟩
  intro ha hr hav
  rw [hscore, ha, hr, hav]
  have hval : ((2 : ℕ) : ℚ) * 2 + ((1 : ℕ) : ℚ) * (3 / 2) + 16 / 5 * 3 = 151 / 10 := by
    norm_num
  rw [hval, round3]
  rw [show ((151 : ℚ) / 10) * 1000 = ((15100 : ℤ) : ℚ) by norm_num]
  rw [round_intCast]
  norm_num

theorem headI_mem_of_ne_nil {α : Type _} [Inhabited α] (l : List α) (h : l ≠ []) :
    l.headI ∈ l := by
  cases l with
  | nil => exact absurd rfl h
  | cons x xs => exact List.mem_cons_self x xs

/-- Witness for C1: two agents, one round, both candidates identical with
entropy 3.2 each; the top group scores exactly 15.1. -/
theorem score_formula_spec_witness :
    (assemble_final_answer twoAgentsSameText "g").allGroups.headI.score = 151 / 10 := by
  have hne : (assemble_final_answer twoAgentsSameText "g").allGroups ≠ [] :=
    List.length_pos_iff_ne_nil.1 (by decide)
  have h := score_formula_spec twoAgentsSameText "g"
    ((assemble_final_answer twoAgentsSameText "g").allGroups.headI)
    (headI_mem_of_ne_nil _ hne)
  refine h.2.2.2.2 (by decide) (by decide) ?_
  have hkey : fragsWithKey twoAgentsSameText
      (assemble_final_answer twoAgentsSameText "g").allGroups.headI.key =
      twoAgentsSameText := rfl
  rw [hkey]
  show ((twoAgentsSameText.map Fragment.entropy).sum) / ((twoAgentsSameText.length : ℕ) : ℚ) = 16 / 5
  simp [twoAgentsSameText]

/-! ### Selection, sorting and root tracking: claim C3 -/

/-- Claim C3: when at least one group exists, the assembler sorts groups by
score descending (stably: for every score value, the groups attaining it
keep their discovery order), returns as `selectedCandidate` the candidate
text of the head of the sorted list, each group's stored candidate text is
its first-inserted fragment's raw text, and each group's `rootAgent` /
`rootEntropy` come from the group's first maximal-entropy fragment (ties
won by the first encountered) — so the selected text and the root
candidate may differ. -/
theorem assembler_selection_spec (fs : List Fragment) (g : String)
    (hne : scoredGroupsOf fs ≠ []) :
    (assemble_final_answer fs g).allGroups = sortDesc (scoredGroupsOf fs) ∧
    List.Perm (assemble_final_answer fs g).allGroups (scoredGroupsOf fs) ∧
    List.Pairwise (fun a b => b.score ≤ a.score) (assemble_final_answer fs g).allGroups ∧
    (∀ v : ℚ, ((assemble_final_answer fs g).allGroups).filter (fun y => decide (y.score = v)) =
      (scoredGroupsOf fs).filter (fun y => decide (y.score = v))) ∧
    (assemble_final_answer fs g).selectedCandidate =
      ((assemble_final_answer fs g).allGroups).headI.candidate ∧
    (∀ sg ∈ scoredGroupsOf fs,
      fragsWithKey fs sg.key ≠ [] ∧
      sg.candidate = (fragsWithKey fs sg.key).headI.candidate ∧
      ∃ r, FirstMax (fragsWithKey fs sg.key) r ∧
        sg.rootAgent = r.agentId ∧ sg.rootEntropy = r.entropy) := by
  have hb : ¬ ((scoredGroupsOf fs).isEmpty = true) := by
    intro hh
    exact hne (List.isEmpty_iff.1 hh)
  have hall : (assemble_final_answer fs g).allGroups = sortDesc (scoredGroupsOf fs) := by
    simp [assemble_final_answer, hb]
  have hsel : (assemble_final_answer fs g).selectedCandidate =
      (sortDesc (scoredGroupsOf fs)).headI.candidate := by
    simp [assemble_final_answer, hb]
  refine ⟨hall, ?_, ?_, ?_, ?_, ?_⟩
  · rw [hall]; exact sortDesc_perm _
  · rw [hall]; exact sortDesc_sorted _
  · intro v; rw [hall]; exact sortDesc_filter _ v
  · rw [hall, hsel]
  · intro sg hsg
    obtain ⟨h1, _, _, _, _, h6, h7⟩ := scoredGroup_spec fs sg hsg
    exact ⟨h1, h6, h7⟩

/-- Witness for C3: two fragments whose candidates normalize to the same
key, the second carrying a metadata comment line and the higher entropy:
the selected text is the first-inserted raw candidate while the root agent
is the second fragment's — they differ. -/
theorem assembler_selection_spec_witness :
    (assemble_final_answer twoAgentsMetaText "g").selectedCandidate =
      ((assemble_final_answer twoAgentsMetaText "g").allGroups).headI.candidate ∧
    (assemble_final_answer twoAgentsMetaText "g").selectedCandidate = "x=1" ∧
    ((assemble_final_answer twoAgentsMetaText "g").allGroups).headI.rootAgent = "agent-1" := by
  have hne : scoredGroupsOf twoAgentsMetaText ≠ [] :=
    List.length_pos_iff_ne_nil.1 (by decide)
  refine ⟨(assembler_selection_spec twoAgentsMetaText "g" hne).2.2.2.2.1, by decide, by decide⟩

/-- Witness for C4 (amended): a single fragment whose candidate is a pure
comment line normalizes to the empty key. -/
theorem degenerate_result_spec_witness :
    (assemble_final_answer
        [{ agentId := "agent-0", origin := "o", round := 0,
           candidate := "// Agent: agent-0 | Model: m | Round: 1", entropy := 1, model := "m" }]
        "g").selectedCandidate =
      "// No valid code candidates were generated by the agents." ∧
    (assemble_final_answer
        [{ agentId := "agent-0", origin := "o", round := 0,
           candidate := "// Agent: agent-0 | Model: m | Round: 1", entropy := 1, model := "m" }]
        "g").score = 0 ∧
    (assemble_final_answer
        [{ agentId := "agent-0", origin := "o", round := 0,
           candidate := "// Agent: agent-0 | Model: m | Round: 1", entropy := 1, model := "m" }]
        "g").allGroups = [] :=
  degenerate_result_spec _ "g" (by decide)

/-! ### Normalization: claim C10 -/

theorem splitLines_ne_nil : ∀ l : List Char, splitLines l ≠ [] := by
  intro l
  cases l with
  | nil => simp [splitLines]
  | cons c rest =>
    rw [splitLines]
    by_cases h : c = '\n'
    · simp [h]
    · simp [h]

theorem joinLines_cons_cons (c : Char) (l : List Char) (ls : List (List Char)) :
    joinLines ((c :: l) :: ls) = c :: joinLines (l :: ls) := by
  cases ls with
  | nil => rfl
  | cons l2 ls2 => rfl

theorem joinLines_splitLines : ∀ l : List Char, joinLines (splitLines l) = l := by
  intro l
  induction l with
  | nil => rfl
  | cons c rest ih =>
    rw [splitLines]
    by_cases h : c = '\n'
    · rw [if_pos h]
      cases hr : splitLines rest with
      | nil => exact absurd hr (splitLines_ne_nil rest)
      | cons r0 rs =>
        show joinLines ([] :: r0 :: rs) = c :: rest
        rw [joinLines, List.nil_append, h]
        rw [hr] at ih
        rw [ih]
    · rw [if_neg h]
      cases hr : splitLines rest with
      | nil => exact absurd hr (splitLines_ne_nil rest)
      | cons r0 rs =>
        show joinLines ((c :: (r0 :: rs).headI) :: (r0 :: rs).tail) = c :: rest
        rw [List.headI, List.tail_cons, joinLines_cons_cons]
        rw [hr] at ih
        rw [ih]

theorem normalize_of_cleanText (s : String) (h : CleanText s) : normalize s = s.data := by
  obtain ⟨hcomment, hbs, hstrip⟩ := h
  rw [normalize]
  have hfilter : (splitLines s.data).filter (fun l => !(isCommentLine l)) = splitLines s.data := by
    apply List.filter_eq_self.mpr
    intro a ha
    rw [hcomment a ha]
    rfl
  rw [hfilter, joinLines_splitLines, hbs, hstrip]

theorem data_ne_nil_of_ne_empty (s : String) (h : s ≠ "") : s.data ≠ [] := by
  intro hd
  apply h
  cases s
  exact congrArg String.mk hd

/-- Claim C10: the grouping normalization removes exactly comment lines,
literal `\s` substrings and boundary whitespace — on candidate texts free
of those three (in particular texts differing only in interior spacing of
non-comment lines) it is the identity — so two fragments with such
distinct candidate texts are placed in two distinct groups. -/
theorem normalization_spec :
    (∀ s : String, CleanText s → normalize s = s.data) ∧
    (∀ f1 f2 : Fragment, CleanText f1.candidate → CleanText f2.candidate →
      f1.candidate ≠ f2.candidate → f1.candidate ≠ "" → f2.candidate ≠ "" →
      normalize f1.candidate ≠ normalize f2.candidate ∧
      (buildGroups [f1, f2]).length = 2) := by
  refine ⟨normalize_of_cleanText, ?_⟩
  intro f1 f2 h1 h2 hne hne1 hne2
  have hn1 : normalize f1.candidate = f1.candidate.data := normalize_of_cleanText _ h1
  have hn2 : normalize f2.candidate = f2.candidate.data := normalize_of_cleanText _ h2
  have hd1 : f1.candidate.data ≠ [] := data_ne_nil_of_ne_empty _ hne1
  have hd2 : f2.candidate.data ≠ [] := data_ne_nil_of_ne_empty _ hne2
  have hkey : normalize f1.candidate ≠ normalize f2.candidate := by
    rw [hn1, hn2]
    intro hd
    apply hne
    cases hc1 : f1.candidate
    cases hc2 : f2.candidate
    rw [hc1, hc2] at hd
    exact congrArg String.mk hd
  refine ⟨hkey, ?_⟩
  have hk1 : normalize f1.candidate ≠ [] := by rw [hn1]; exact hd1
  have hk2 : normalize f2.candidate ≠ [] := by rw [hn2]; exact hd2
  have hb1 : buildStep [] f1 = [(normalize f1.candidate, addFrag emptyGroup f1)] := by
    rw [buildStep, if_neg hk1]
    rfl
  have hb2 : buildStep [(normalize f1.candidate, addFrag emptyGroup f1)] f2 =
      [(normalize f1.candidate, addFrag emptyGroup f1),
       (normalize f2.candidate, addFrag emptyGroup f2)] := by
    rw [buildStep, if_neg hk2]
    show assocUpdate [(normalize f1.candidate, addFrag emptyGroup f1)] (normalize f2.candidate) f2 = _
    rw [assocUpdate, if_neg (fun hh => hkey hh)]
    rfl
  show ([f1, f2].foldl buildStep []).length = 2
  rw [List.foldl_cons, List.foldl_cons, List.foldl_nil, hb1, hb2]
  rfl

/-- Witness for C10: two candidates differing only in the interior spacing
of a non-comment line land in two distinct groups. -/
theorem normalization_spec_witness :
    normalize ({ agentId := "a", origin := "o", round := 0, candidate := "a  b",
                 entropy := 1, model := "m" } : Fragment).candidate ≠
      normalize ({ agentId := "b", origin := "o", round := 0, candidate := "a b",
                   entropy := 1, model := "m" } : Fragment).candidate ∧
    (buildGroups
      [{ agentId := "a", origin := "o", round := 0, candidate := "a  b",
         entropy := 1, model := "m" },
       { agentId := "b", origin := "o", round := 0, candidate := "a b",
         entropy := 1, model := "m" }]).length = 2 :=
  normalization_spec.2
    { agentId := "a", origin := "o", round := 0, candidate := "a  b", entropy := 1, model := "m" }
    { agentId := "b", origin := "o", round := 0, candidate := "a b", entropy := 1, model := "m" }
    ⟨by decide, by decide, by decide⟩ ⟨by decide, by decide, by decide⟩
    (by decide) (by decide) (by decide)

/-! ### Entropy bounds: claim C6 -/

theorem gibbs_ineq (D : Finset Char) (p : Char → ℝ)
    (hpos : ∀ c ∈ D, 0 < p c) (hsum : ∑ c in D, p c = 1) :
    ∑ c in D, -(p c * Real.log (p c)) ≤ Real.log (D.card : ℝ) := by
  have hDne : D.Nonempty := by
    rcases Finset.eq_empty_or_nonempty D with h | h
    · rw [h] at hsum; simp at hsum
    · exact h
  have hm : (0 : ℝ) < (D.card : ℝ) := by exact_mod_cast Finset.card_pos.2 hDne
  have key : ∀ c ∈ D, -(p c * Real.log (p c)) =
      p c * Real.log ((p c * (D.card : ℝ))⁻¹) + p c * Real.log (D.card : ℝ) := by
    intro c hc
    have hpc := hpos c hc
    have h1 : Real.log ((p c * (D.card : ℝ))⁻¹) =
        -(Real.log (p c) + Real.log (D.card : ℝ)) := by
      rw [Real.log_inv, Real.log_mul (ne_of_gt hpc) (ne_of_gt hm)]
    rw [h1]; ring
  have hsplit : ∑ c in D, -(p c * Real.log (p c)) =
      (∑ c in D, p c * Real.log ((p c * (D.card : ℝ))⁻¹)) + Real.log (D.card : ℝ) := by
    rw [Finset.sum_congr rfl key, Finset.sum_add_distrib, ← Finset.sum_mul, hsum, one_mul]
  have hterm : ∀ c ∈ D, p c * Real.log ((p c * (D.card : ℝ))⁻¹) ≤ 1 / (D.card : ℝ) - p c := by
    intro c hc
    have hpc := hpos c hc
    have hpm : (0 : ℝ) < (p c * (D.card : ℝ))⁻¹ := inv_pos.2 (mul_pos hpc hm)
    have hlog := Real.log_le_sub_one_of_pos hpm
    have hmul := mul_le_mul_of_nonneg_left hlog (le_of_lt hpc)
    have hexp : p c * ((p c * (D.card : ℝ))⁻¹ - 1) = 1 / (D.card : ℝ) - p c := by
      rw [mul_sub, mul_one, mul_inv, ← mul_assoc, mul_inv_cancel₀ (ne_of_gt hpc), one_mul,
        one_div]
    linarith
  have hS : ∑ c in D, p c * Real.log ((p c * (D.card : ℝ))⁻¹) ≤ 0 := by
    calc ∑ c in D, p c * Real.log ((p c * (D.card : ℝ))⁻¹)
        ≤ ∑ c in D, (1 / (D.card : ℝ) - p c) := Finset.sum_le_sum hterm
      _ = (D.card : ℝ) * (1 / (D.card : ℝ)) - 1 := by
          rw [Finset.sum_sub_distrib, Finset.sum_const, hsum, nsmul_eq_mul]
      _ = 0 := by field_simp
  linarith

theorem entropySum_eq_div (l : List Char) :
    entropySum l = (∑ c in l.toFinset,
      -(((l.count c : ℝ) / (l.length : ℝ)) *
        Real.log ((l.count c : ℝ) / (l.length : ℝ)))) / Real.log 2 := by
  rw [entropySum, Finset.sum_div]
  apply Finset.sum_congr rfl
  intro c _
  simp only [Real.logb]
  ring

theorem entropySum_nonneg (l : List Char) : 0 ≤ entropySum l := by
  apply Finset.sum_nonneg
  intro c hc
  have hcpos : 0 < l.count c := List.count_pos_iff.2 (List.mem_toFinset.1 hc)
  have hnpos : 0 < l.length := lt_of_lt_of_le hcpos (List.count_le_length c l)
  have hnR : (0 : ℝ) < (l.length : ℝ) := by exact_mod_cast hnpos
  have hp0 : 0 < (l.count c : ℝ) / (l.length : ℝ) :=
    div_pos (by exact_mod_cast hcpos) hnR
  have hp1 : (l.count c : ℝ) / (l.length : ℝ) ≤ 1 := by
    rw [div_le_one hnR]
    exact_mod_cast List.count_le_length c l
  have hlogb : Real.logb 2 ((l.count c : ℝ) / (l.length : ℝ)) ≤ 0 :=
    Real.logb_nonpos (by norm_num) (le_of_lt hp0) hp1
  have hmul := mul_le_mul_of_nonneg_left hlogb (le_of_lt hp0)
  simp only [mul_zero] at hmul
  linarith

theorem entropySum_le_four (l : List Char) (hcard : l.toFinset.card ≤ 16) :
    entropySum l ≤ 4 := by
  rcases eq_or_ne l [] with rfl | hl
  · simp [entropySum]
  · have hn : 0 < l.length := List.length_pos_iff_ne_nil.2 hl
    have hnR : (0 : ℝ) < (l.length : ℝ) := by exact_mod_cast hn
    have hpos : ∀ c ∈ l.toFinset, 0 < (l.count c : ℝ) / (l.length : ℝ) := by
      intro c hc
      have : 0 < l.count c := List.count_pos_iff.2 (List.mem_toFinset.1 hc)
      exact div_pos (by exact_mod_cast this) hnR
    have hsum1 : ∑ c in l.toFinset, (l.count c : ℝ) / (l.length : ℝ) = 1 := by
      have hsumN : ∑ c in l.toFinset, l.count c = l.length := by
        simpa using Multiset.toFinset_sum_count_eq (l : Multiset Char)
      have hsumR : (∑ c in l.toFinset, (l.count c : ℝ)) = (l.length : ℝ) := by
        rw [← Nat.cast_sum, hsumN]
      rw [← Finset.sum_div, hsumR, div_self (ne_of_gt hnR)]
    have hgibbs := gibbs_ineq l.toFinset (fun c => (l.count c : ℝ) / (l.length : ℝ)) hpos hsum1
    have hlog2 : (0 : ℝ) < Real.log 2 := Real.log_pos (by norm_num)
    have hcpos : (0 : ℝ) < (l.toFinset.card : ℝ) := by
      obtain ⟨c, hc⟩ := List.exists_mem_of_ne_nil l hl
      exact_mod_cast Finset.card_pos.2 ⟨c, List.mem_toFinset.2 hc⟩
    have hlogle : Real.log (l.toFinset.card : ℝ) ≤ Real.log 16 :=
      Real.log_le_log hcpos (by exact_mod_cast hcard)
    have hlog16 : Real.log 16 / Real.log 2 = 4 := by
      rw [show (16 : ℝ) = 2 ^ (4 : ℕ) by norm_num, Real.log_pow]
      field_simp
    calc entropySum l
        ≤ Real.log (l.toFinset.card : ℝ) / Real.log 2 := by
          rw [entropySum_eq_div]
          exact (div_le_div_right hlog2).2 hgibbs
      _ ≤ Real.log 16 / Real.log 2 := (div_le_div_right hlog2).2 hlogle
      _ = 4 := hlog16

theorem entropySum_replicate (c : Char) (n : Nat) :
    entropySum (List.replicate n c) = 0 := by
  cases n with
  | zero => simp [entropySum]
  | succ n =>
    rw [entropySum, List.toFinset_replicate_of_ne_zero (Nat.succ_ne_zero n),
      Finset.sum_singleton, List.count_replicate_self, List.length_replicate]
    have hne : ((n + 1 : ℕ) : ℝ) ≠ 0 := by exact_mod_cast Nat.succ_ne_zero n
    rw [div_self hne, Real.logb_one, mul_zero, neg_zero]

theorem calculate_entropy_of_entropySum_bounds (s : String)
    (h0 : 0 ≤ entropySum s.data) (h4 : entropySum s.data ≤ 4) :
    0 ≤ calculate_entropy s ∧ calculate_entropy s ≤ 4 := by
  have hlow : (0 : ℤ) ≤ round (entropySum s.data * 1000) := by
    rw [round_eq]
    exact Int.le_floor.2 (by push_cast; linarith)
  have hhigh : round (entropySum s.data * 1000) ≤ 4000 := by
    rw [round_eq]
    have hmono : ⌊entropySum s.data * 1000 + 1 / 2⌋ ≤ ⌊(4000 + 1 / 2 : ℝ)⌋ :=
      Int.floor_mono (by linarith)
    have hval : ⌊(4000 + 1 / 2 : ℝ)⌋ = 4000 := by
      rw [Int.floor_eq_iff]
      constructor
      · push_cast; norm_num
      · push_cast; norm_num
    rw [hval] at hmono
    exact hmono
  constructor
  · apply div_nonneg _ (by norm_num)
    exact_mod_cast hlow
  · rw [calculate_entropy, div_le_iff (by norm_num : (0 : ℚ) < 1000)]
    calc ((round (entropySum s.data * 1000) : ℤ) : ℚ) ≤ ((4000 : ℤ) : ℚ) := by
          exact_mod_cast hhigh
      _ = 4 * 1000 := by norm_num

/-- Claim C6: for every string over an alphabet of at most 16 symbols (in
particular every hex digest), `calculate_entropy` returns a value between
0 and 4.0 inclusive, and for a string consisting of a single repeated
character it returns exactly 0. -/
theorem entropy_bounds :
    (∀ s : String, s.data.toFinset.card ≤ 16 →
      0 ≤ calculate_entropy s ∧ calculate_entropy s ≤ 4) ∧
    (∀ (c : Char) (n : Nat), calculate_entropy (String.mk (List.replicate n c)) = 0) := by
  constructor
  · intro s hcard
    exact calculate_entropy_of_entropySum_bounds s (entropySum_nonneg s.data)
      (entropySum_le_four s.data hcard)
  · intro c n
    have h : entropySum (String.mk (List.replicate n c)).data = 0 := entropySum_replicate c n
    rw [calculate_entropy, h]
    norm_num

/-- Witness for C6: the two-symbol string "ab" satisfies the bound
hypothesis, and a five-fold repeated character has entropy exactly 0. -/
theorem entropy_bounds_witness :
    ("ab" : String).data.toFinset.card ≤ 16 ∧
    (0 ≤ calculate_entropy "ab" ∧ calculate_entropy "ab" ≤ 4) ∧
    calculate_entropy (String.mk (List.replicate 5 'z')) = 0 :=
  ⟨by decide, entropy_bounds.1 "ab" (by decide), entropy_bounds.2 'z' 5⟩

/-! ### Orchestration closed forms -/

section OrchestratorLemmas

variable (sha256 : String → String)
variable (svc : String → String → Except String String)
variable (prompt context file_type : String) (reasoning_depth : Nat) (genesis : String)

theorem roundFrags_length (round_num : Nat) :
    ∀ (ags : List Agent) (idx : Nat),
      (roundFrags sha256 svc prompt context file_type reasoning_depth genesis round_num idx ags).length =
        ags.length := by
  intro ags
  induction ags with
  | nil => intro idx; rfl
  | cons a tl ih => intro idx; simp [roundFrags, ih]

theorem roundFrags_getD (round_num : Nat) :
    ∀ (ags : List Agent) (idx i : Nat), i < ags.length →
      (roundFrags sha256 svc prompt context file_type reasoning_depth genesis round_num idx ags).getD i default =
        fragOf sha256 svc prompt context file_type reasoning_depth genesis round_num (idx + i)
          (ags.getD i default) := by
  intro ags
  induction ags with
  | nil => intro idx i h; simp at h
  | cons a tl ih =>
    intro idx i h
    cases i with
    | zero => simp [roundFrags]
    | succ i =>
      simp only [roundFrags, List.getD_cons_succ]
      rw [ih (idx + 1) i (by simpa using Nat.lt_of_succ_lt_succ h)]
      have harith : idx + 1 + i = idx + (i + 1) := by omega
      rw [harith]

theorem foldl_agentBody_spec (round_num : Nat) :
    ∀ (ags : List Agent) (acc : List Agent) (frags : List Fragment) (idx : Nat),
      ags.foldl (agentBody sha256 svc prompt context file_type reasoning_depth genesis round_num)
        { agents := acc, fragments := frags, modelIdx := idx } =
      { agents := acc ++ ags.map (fun a =>
          { id := a.id, origin := sha256 (a.origin ++ genesis ++ toString round_num) }),
        fragments := frags ++
          roundFrags sha256 svc prompt context file_type reasoning_depth genesis round_num idx ags,
        modelIdx := idx + ags.length } := by
  intro ags
  induction ags with
  | nil => intro acc frags idx; simp [roundFrags]
  | cons a tl ih =>
    intro acc frags idx
    rw [List.foldl_cons]
    have hbody : agentBody sha256 svc prompt context file_type reasoning_depth genesis round_num
        { agents := acc, fragments := frags, modelIdx := idx } a =
        { agents := acc ++ [{ id := a.id, origin := sha256 (a.origin ++ genesis ++ toString round_num) }],
          fragments := frags ++
            [fragOf sha256 svc prompt context file_type reasoning_depth genesis round_num idx a],
          modelIdx := idx + 1 } := rfl
    rw [hbody, ih]
    simp only [roundFrags, List.map_cons, List.append_assoc, List.singleton_append,
      List.length_cons, RunState.mk.injEq]
    refine ⟨trivial, trivial, by omega⟩

theorem runRound_spec (round_num : Nat) (ags : List Agent) (frags : List Fragment) (idx : Nat) :
    runRound sha256 svc prompt context file_type reasoning_depth genesis round_num
      { agents := ags, fragments := frags, modelIdx := idx } =
    { agents := ags.map (fun a =>
        { id := a.id, origin := sha256 (a.origin ++ genesis ++ toString round_num) }),
      fragments := frags ++
        roundFrags sha256 svc prompt context file_type reasoning_depth genesis round_num idx ags,
      modelIdx := idx + ags.length } := by
  rw [runRound, foldl_agentBody_spec]
  simp

theorem agentsAtRound_zero (ags : List Agent) : agentsAtRound sha256 genesis ags 0 = ags := by
  show ags.map (fun a => { id := a.id, origin := chainOrigin sha256 genesis a.origin 0 }) = ags
  exact List.map_id' ags

theorem agentsAtRound_length (ags : List Agent) (r : Nat) :
    (agentsAtRound sha256 genesis ags r).length = ags.length := by
  simp [agentsAtRound]

theorem agentsAtRound_succ (ags : List Agent) (r : Nat) :
    (agentsAtRound sha256 genesis ags r).map (fun a =>
      { id := a.id, origin := sha256 (a.origin ++ genesis ++ toString r) }) =
    agentsAtRound sha256 genesis ags (r + 1) := by
  rw [agentsAtRound, agentsAtRound, List.map_map]
  rfl

theorem agentsAtRound_getD (ags : List Agent) (r i : Nat) (h : i < ags.length) :
    (agentsAtRound sha256 genesis ags r).getD i default =
      { id := (ags.getD i default).id,
        origin := chainOrigin sha256 genesis (ags.getD i default).origin r } := by
  rw [agentsAtRound, List.getD_eq_getElem _ _ (by simpa using h), List.getElem_map,
    List.getD_eq_getElem _ _ h]

theorem foldl_runRound_spec :
    ∀ (m : Nat) (ags : List Agent) (frags : List Fragment) (idx : Nat),
      (List.range m).foldl
        (fun st r => runRound sha256 svc prompt context file_type reasoning_depth genesis r st)
        { agents := ags, fragments := frags, modelIdx := idx } =
      { agents := agentsAtRound sha256 genesis ags m,
        fragments := frags ++
          fragsUpTo sha256 svc prompt context file_type reasoning_depth genesis ags idx m,
        modelIdx := idx + m * ags.length } := by
  intro m
  induction m with
  | zero =>
    intro ags frags idx
    simp [fragsUpTo, agentsAtRound_zero]
  | succ m ih =>
    intro ags frags idx
    rw [List.range_succ, List.foldl_append, List.foldl_cons, List.foldl_nil, ih, runRound_spec]
    simp only [RunState.mk.injEq]
    refine ⟨agentsAtRound_succ sha256 genesis ags m, ?_, ?_⟩
    · rw [fragsUpTo, List.append_assoc]
    · rw [agentsAtRound_length]
      ring

theorem fragsUpTo_length :
    ∀ (m : Nat) (ags : List Agent) (idx : Nat),
      (fragsUpTo sha256 svc prompt context file_type reasoning_depth genesis ags idx m).length =
        m * ags.length := by
  intro m
  induction m with
  | zero => intro ags idx; simp [fragsUpTo]
  | succ m ih =>
    intro ags idx
    rw [fragsUpTo, List.length_append, ih, roundFrags_length, agentsAtRound_length]
    ring

theorem fragsUpTo_getD (ags : List Agent) (idx0 : Nat) :
    ∀ (m r i : Nat), r < m → i < ags.length →
      (fragsUpTo sha256 svc prompt context file_type reasoning_depth genesis ags idx0 m).getD
          (r * ags.length + i) default =
        fragOf sha256 svc prompt context file_type reasoning_depth genesis r
          (idx0 + r * ags.length + i)
          ((agentsAtRound sha256 genesis ags r).getD i default) := by
  intro m
  induction m with
  | zero => intro r i hr _; exact absurd hr (Nat.not_lt_zero r)
  | succ m ih =>
    intro r i hr hi
    rw [fragsUpTo]
    rcases Nat.lt_succ_iff_lt_or_eq.1 hr with hlt | heq
    · rw [List.getD_append]
      · exact ih r i hlt hi
      · rw [fragsUpTo_length]
        calc r * ags.length + i < r * ags.length + ags.length := by omega
          _ = (r + 1) * ags.length := by ring
          _ ≤ m * ags.length := Nat.mul_le_mul_right _ hlt
    · subst heq
      rw [List.getD_append_right]
      · rw [fragsUpTo_length]
        have hsub : r * ags.length + i - r * ags.length = i := by omega
        rw [hsub, roundFrags_getD]
        rw [agentsAtRound_length]
        exact hi
      · rw [fragsUpTo_length]
        omega

theorem fragsUpTo_add (ags : List Agent) (idx0 : Nat) :
    ∀ (d m2 : Nat), ∃ rest,
      fragsUpTo sha256 svc prompt context file_type reasoning_depth genesis ags idx0 (m2 + d) =
        fragsUpTo sha256 svc prompt context file_type reasoning_depth genesis ags idx0 m2 ++ rest := by
  intro d
  induction d with
  | zero => intro m2; exact ⟨[], by simp⟩
  | succ d ih =>
    intro m2
    obtain ⟨rest, hrest⟩ := ih m2
    refine ⟨rest ++
      roundFrags sha256 svc prompt context file_type reasoning_depth genesis (m2 + d)
        (idx0 + (m2 + d) * ags.length) (agentsAtRound sha256 genesis ags (m2 + d)), ?_⟩
    show fragsUpTo sha256 svc prompt context file_type reasoning_depth genesis ags idx0 ((m2 + d) + 1) = _
    rw [fragsUpTo, hrest, List.append_assoc]

theorem initAgents_length (nonce : Nat → String) (gen : String) (n : Nat) :
    (initAgents sha256 nonce gen n).length = n := by
  simp [initAgents]

theorem initAgents_getD (nonce : Nat → String) (gen : String) (n i : Nat) (h : i < n) :
    (initAgents sha256 nonce gen n).getD i default =
      { id := "agent-" ++ toString i,
        origin := sha256 (gen ++ ("agent-" ++ toString i) ++ nonce i) } := by
  rw [initAgents, List.getD_eq_getElem _ _ (by simpa using h), List.getElem_map,
    List.getElem_range]

theorem orchestrate_spec (nonce : Nat → String) (now editor_context prompt_text : String)
    (agent_count max_rounds reasoning_depth2 : Nat) (file_type2 : String) (modelIdx0 : Nat) :
    orchestrate sha256 svc nonce now editor_context prompt_text agent_count max_rounds
        reasoning_depth2 file_type2 modelIdx0 =
      { agents := agentsAtRound sha256 (genesisOf sha256 now editor_context)
          (initAgents sha256 nonce (genesisOf sha256 now editor_context) agent_count) max_rounds,
        fragments := fragsUpTo sha256 svc prompt_text editor_context file_type2 reasoning_depth2
          (genesisOf sha256 now editor_context)
          (initAgents sha256 nonce (genesisOf sha256 now editor_context) agent_count)
          modelIdx0 max_rounds,
        modelIdx := modelIdx0 + max_rounds * agent_count } := by
  rw [orchestrate, foldl_runRound_spec, initAgents_length]
  rfl

end OrchestratorLemmas

/-- The fragment recorded for (agent i, round r): slot `r * n + i` of the
run's fragment list, built by `fragOf` from the agent's round-r chained
origin and the model counter value at that call. -/
theorem orchestrate_fragment_slot (sha256 : String → String)
    (svc : String → String → Except String String) (nonce : Nat → String)
    (now editor_context prompt_text : String) (n m depth : Nat) (ft : String) (idx0 : Nat)
    (i r : Nat) (hi : i < n) (hr : r < m) :
    (orchestrate sha256 svc nonce now editor_context prompt_text n m depth ft idx0).fragments.getD
        (r * n + i) default =
      fragOf sha256 svc prompt_text editor_context ft depth (genesisOf sha256 now editor_context) r
        (idx0 + r * n + i)
        { id := "agent-" ++ toString i,
          origin := chainOrigin sha256 (genesisOf sha256 now editor_context)
            (initOrigin sha256 nonce now editor_context i) r } := by
  rw [orchestrate_spec]
  dsimp only
  have hlen := initAgents_length sha256 nonce (genesisOf sha256 now editor_context) n
  have hgd := fragsUpTo_getD sha256 svc prompt_text editor_context ft depth
    (genesisOf sha256 now editor_context)
    (initAgents sha256 nonce (genesisOf sha256 now editor_context) n) idx0 m r i hr
    (by rw [hlen]; exact hi)
  rw [hlen] at hgd
  have hag := agentsAtRound_getD sha256 (genesisOf sha256 now editor_context)
    (initAgents sha256 nonce (genesisOf sha256 now editor_context) n) r i
    (by rw [hlen]; exact hi)
  rw [initAgents_getD sha256 nonce _ n i hi] at hag
  rw [hag] at hgd
  rw [hgd]
  rfl

/-! ### Hash-chain lineage: claim C2 -/

/-- Claim C2: for every agent i and round r < maxRounds, the origin stored
in the Fragment for (agent i, round r) is the post-round chain value
`chainOrigin (r+1)`, and for every k the chain satisfies
`chainOrigin (k+1) = sha256(chainOrigin k ++ genesis ++ str k)` — each
origin is a function only of the immediately preceding origin, the genesis
hash and the round index. -/
theorem origin_chain_spec (sha256 : String → String)
    (svc : String → String → Except String String) (nonce : Nat → String)
    (now editor_context prompt_text : String) (n m depth : Nat) (ft : String) (idx0 : Nat)
    (i r : Nat) (hi : i < n) (hr : r < m) :
    ((orchestrate sha256 svc nonce now editor_context prompt_text n m depth ft idx0).fragments.getD
        (r * n + i) default).agentId = "agent-" ++ toString i ∧
    ((orchestrate sha256 svc nonce now editor_context prompt_text n m depth ft idx0).fragments.getD
        (r * n + i) default).round = r ∧
    ((orchestrate sha256 svc nonce now editor_context prompt_text n m depth ft idx0).fragments.getD
        (r * n + i) default).origin =
      chainOrigin sha256 (genesisOf sha256 now editor_context)
        (initOrigin sha256 nonce now editor_context i) (r + 1) ∧
    (∀ k : Nat, chainOrigin sha256 (genesisOf sha256 now editor_context)
        (initOrigin sha256 nonce now editor_context i) (k + 1) =
      sha256 (chainOrigin sha256 (genesisOf sha256 now editor_context)
          (initOrigin sha256 nonce now editor_context i) k ++
        genesisOf sha256 now editor_context ++ toString k)) := by
  rw [orchestrate_fragment_slot sha256 svc nonce now editor_context prompt_text n m depth ft idx0
    i r hi hr]
  exact ⟨rfl, rfl, rfl, fun k => rfl⟩

/-- Witness for C2: a one-agent, one-round run with an explicit hash,
service and nonce; the stored origin is the chained post-round value. -/
theorem origin_chain_spec_witness :
    ((orchestrate (fun s => s) (fun _ _ => Except.ok "y") (fun _ => "x") "t" "c" "p" 1 1 3 "js"
        0).fragments.getD (0 * 1 + 0) default).origin =
      chainOrigin (fun s => s) (genesisOf (fun s => s) "t" "c")
        (initOrigin (fun s => s) (fun _ => "x") "t" "c" 0) (0 + 1) :=
  (origin_chain_spec (fun s => s) (fun _ _ => Except.ok "y") (fun _ => "x") "t" "c" "p" 1 1 3 "js"
    0 0 0 (by decide) (by decide)).2.2.1

/-! ### Failure isolation: claim C5 -/

/-- Claim C5: when the generation call of agent i in round r fails with
message e, the run still records a Fragment in that (agent, round) slot,
whose candidate is the placeholder string containing the agent id and the
human-readable error, and the run still produces all `n * m` fragments —
the per-agent failure is absorbed inside `perform_fractal_reasoning` and
never surfaces as a top-level error. -/
theorem agent_failure_isolation (sha256 : String → String)
    (svc : String → String → Except String String) (nonce : Nat → String)
    (now editor_context prompt_text : String) (n m depth : Nat) (ft : String) (idx0 : Nat)
    (i r : Nat) (e : String) (hi : i < n) (hr : r < m)
    (hfail : svc (OLLAMA_MODELS.getD ((idx0 + r * n + i) % OLLAMA_MODELS.length) "")
        (fullPrompt ("agent-" ++ toString i)
          (OLLAMA_MODELS.getD ((idx0 + r * n + i) % OLLAMA_MODELS.length) "")
          prompt_text editor_context r ft depth) = Except.error e) :
    ((orchestrate sha256 svc nonce now editor_context prompt_text n m depth ft idx0).fragments.getD
        (r * n + i) default).candidate =
      "// Agent " ++ ("agent-" ++ toString i) ++ " failed to generate a response.\n// Error: " ++
        ("Ollama connection error for agent " ++ ("agent-" ++ toString i) ++ ": " ++ e) ∧
    ((orchestrate sha256 svc nonce now editor_context prompt_text n m depth ft idx0).fragments.getD
        (r * n + i) default).model =
      OLLAMA_MODELS.getD ((idx0 + r * n + i) % OLLAMA_MODELS.length) "" ∧
    (orchestrate sha256 svc nonce now editor_context prompt_text n m depth ft idx0).fragments.length =
      n * m := by
  rw [orchestrate_fragment_slot sha256 svc nonce now editor_context prompt_text n m depth ft idx0
    i r hi hr]
  refine ⟨?_, rfl, ?_⟩
  · simp only [fragOf, perform_fractal_reasoning, hfail]
  · rw [orchestrate_spec]
    dsimp only
    rw [fragsUpTo_length, initAgents_length]
    ring

/-- Witness for C5: a one-agent, one-round run whose service call always
fails; the slot still holds a fragment carrying the placeholder text. -/
theorem agent_failure_isolation_witness :
    ((orchestrate (fun s => s) (fun _ _ => Except.error "refused") (fun _ => "x") "t" "c" "p" 1 1 3
        "js" 0).fragments.getD (0 * 1 + 0) default).candidate =
      "// Agent " ++ ("agent-" ++ toString 0) ++ " failed to generate a response.\n// Error: " ++
        ("Ollama connection error for agent " ++ ("agent-" ++ toString 0) ++ ": " ++ "refused") ∧
    (orchestrate (fun s => s) (fun _ _ => Except.error "refused") (fun _ => "x") "t" "c" "p" 1 1 3
        "js" 0).fragments.length = 1 * 1 :=
  ⟨(agent_failure_isolation (fun s => s) (fun _ _ => Except.error "refused") (fun _ => "x")
      "t" "c" "p" 1 1 3 "js" 0 0 0 "refused" (by decide) (by decide) rfl).1,
   (agent_failure_isolation (fun s => s) (fun _ _ => Except.error "refused") (fun _ => "x")
      "t" "c" "p" 1 1 3 "js" 0 0 0 "refused" (by decide) (by decide) rfl).2.2⟩

/-! ### Fragment schedule: claim C8 -/

/-- Claim C8: a run with agentCount = n and maxRounds = m produces exactly
`n * m` fragments, in round-major order with agents in creation order
(slot k holds round `k / n` and agent `"agent-" ++ (k mod n)`), and the
fragment list of a shorter run is a prefix (take) of the longer run's —
fragments are only ever appended, never modified. -/
theorem fragment_schedule_spec (sha256 : String → String)
    (svc : String → String → Except String String) (nonce : Nat → String)
    (now editor_context prompt_text : String) (n m depth : Nat) (ft : String) (idx0 : Nat) :
    (orchestrate sha256 svc nonce now editor_context prompt_text n m depth ft idx0).fragments.length =
      n * m ∧
    (∀ k, k < n * m →
      ((orchestrate sha256 svc nonce now editor_context prompt_text n m depth ft
          idx0).fragments.getD k default).round = k / n ∧
      ((orchestrate sha256 svc nonce now editor_context prompt_text n m depth ft
          idx0).fragments.getD k default).agentId = "agent-" ++ toString (k % n)) ∧
    (∀ m2, m2 ≤ m →
      (orchestrate sha256 svc nonce now editor_context prompt_text n m2 depth ft idx0).fragments =
        ((orchestrate sha256 svc nonce now editor_context prompt_text n m depth ft
          idx0).fragments).take (n * m2)) := by
  refine ⟨?_, ?_, ?_⟩
  · rw [orchestrate_spec]
    dsimp only
    rw [fragsUpTo_length, initAgents_length]
    ring
  · intro k hk
    have hn : 0 < n := by
      rcases Nat.eq_zero_or_pos n with h0 | h
      · rw [h0] at hk; simp at hk
      · exact h
    have hk2 : k < m * n := by
      have hcomm : n * m = m * n := Nat.mul_comm n m
      rw [hcomm] at hk
      exact hk
    have hr : k / n < m := (Nat.div_lt_iff_lt_mul hn).2 hk2
    have hi : k % n < n := Nat.mod_lt _ hn
    have hsplit : (k / n) * n + k % n = k := by
      rw [Nat.mul_comm]
      exact Nat.div_add_mod k n
    have hslot := orchestrate_fragment_slot sha256 svc nonce now editor_context prompt_text n m
      depth ft idx0 (k % n) (k / n) hi hr
    rw [hsplit] at hslot
    rw [hslot]
    exact ⟨rfl, rfl⟩
  · intro m2 hm2
    obtain ⟨d, rfl⟩ := Nat.exists_eq_add_of_le hm2
    rw [orchestrate_spec, orchestrate_spec]
    dsimp only
    obtain ⟨rest, hrest⟩ := fragsUpTo_add sha256 svc prompt_text editor_context ft depth
      (genesisOf sha256 now editor_context)
      (initAgents sha256 nonce (genesisOf sha256 now editor_context) n) idx0 d m2
    rw [hrest]
    rw [show n * m2 = (fragsUpTo sha256 svc prompt_text editor_context ft depth
        (genesisOf sha256 now editor_context)
        (initAgents sha256 nonce (genesisOf sha256 now editor_context) n) idx0 m2).length by
      rw [fragsUpTo_length, initAgents_length]; ring]
    rw [List.take_left]

/-- Witness for C8: a two-agent, two-round run has four fragments and slot
3 holds round 1 for agent "agent-1". -/
theorem fragment_schedule_spec_witness :
    (orchestrate (fun s => s) (fun _ _ => Except.ok "y") (fun _ => "x") "t" "c" "p" 2 2 3 "js"
        0).fragments.length = 2 * 2 ∧
    ((orchestrate (fun s => s) (fun _ _ => Except.ok "y") (fun _ => "x") "t" "c" "p" 2 2 3 "js"
        0).fragments.getD 3 default).round = 3 / 2 ∧
    ((orchestrate (fun s => s) (fun _ _ => Except.ok "y") (fun _ => "x") "t" "c" "p" 2 2 3 "js"
        0).fragments.getD 3 default).agentId = "agent-" ++ toString (3 % 2) := by
  have h := fragment_schedule_spec (fun s => s) (fun _ _ => Except.ok "y") (fun _ => "x")
    "t" "c" "p" 2 2 3 "js" 0
  exact ⟨h.1, (h.2.1 3 (by decide)).1, (h.2.1 3 (by decide)).2⟩

end CodersAGI
